import Mathlib

/-!
Verification of the go-logo structured-logging library.

This file gives a shallow embedding of the handler/formatting and
multi-destination dispatch layer of the repository (package `logo`):
the level model, the attribute normalizer, the custom text handler,
the JSON handler, the logger facade (`Trace`, `Fatal`, `SetLoggerLevel`,
`Close`) and the channel writer, together with theorems settling the
specification claims about them.

Machine integers that matter here (slog levels) are small signed values,
embedded as `Int`.  Go maps used by the handlers are embedded as
association lists with replace-or-append update, which is faithful
because the source only ever reads them through key lookup, key deletion
and key-set iteration followed by a sort.
-/

namespace Logo

/-! ### Level model (logo.go, handler_custom.go) -/

/-- slog levels are signed integers. -/
abbrev Level := Int

def LevelDebug : Level := -4
def LevelInfo : Level := 0
def LevelWarn : Level := 4
def LevelError : Level := 8

/-- LevelTrace is a level below DEBUG: `slog.LevelDebug - 5`. -/
def LevelTrace : Level := LevelDebug - 5

/-- LevelFatal is a level above ERROR: `slog.LevelError + 1`. -/
def LevelFatal : Level := LevelError + 1

/-- `levelToString` from handler_custom.go: the six named levels map to their
labels, every other numeric level maps to the empty string. -/
def levelToString (l : Level) : String :=
  if l = LevelTrace then "TRACE"
  else if l = LevelDebug then "DEBUG"
  else if l = LevelInfo then "INFO"
  else if l = LevelWarn then "WARN"
  else if l = LevelError then "ERROR"
  else if l = LevelFatal then "FATAL"
  else ""

/-! ### Attribute values and the attribute normalizer (logo.go `normalizeAttrs`) -/

/-- A Go `any` value as it can appear in a logging call's variadic argument
list or inside an `slog.Attr`.  `vnil` is Go's untyped nil (the value of the
zero `slog.Attr{}`); `vattr` is an `slog.Attr` sitting at a value position. -/
inductive SVal where
  | vnil : SVal
  | vstr (s : String) : SVal
  | vint (n : Int) : SVal
  | vbool (b : Bool) : SVal
  | vattr (k : String) (v : SVal) : SVal
deriving DecidableEq, Repr

/-- `slog.Value.String()` / `Value.Any()` stringification used by the text
handler (`a.Value.String()`). -/
def SVal.render : SVal → String
  | .vnil => "<nil>"
  | .vstr s => s
  | .vint n => toString n
  | .vbool b => if b then "true" else "false"
  | .vattr k v => k ++ "=" ++ v.render

/-- One element of the variadic `attrs ...any` argument list of a logging
call: a pre-built `slog.Attr`, a Go string, or any other value. -/
inductive Arg where
  | attr (k : String) (v : SVal) : Arg
  | str (s : String) : Arg
  | other (v : SVal) : Arg
deriving DecidableEq, Repr

/-- The `any` value denoted by an argument when it is consumed at a value
position (`slog.Any(v, args[i+1])`). -/
def Arg.toVal : Arg → SVal
  | .attr k v => .vattr k v
  | .str s => .vstr s
  | .other v => v

/-- `normalizeAttrs` from logo.go: a pre-built attribute is taken as-is; a
string is a key taking the next element as its value; a trailing string key
gets the sentinel value `"(MISSING)"`; a non-string non-attribute element at
a key position is skipped together with its would-be value. -/
def normalizeAttrs : List Arg → List (String × SVal)
  | [] => []
  | .attr k v :: rest => (k, v) :: normalizeAttrs rest
  | .str s :: x :: rest => (s, x.toVal) :: normalizeAttrs rest
  | [.str s] => [(s, .vstr "(MISSING)")]
  | .other _ :: _ :: rest => normalizeAttrs rest
  | [.other _] => []

/-- Re-inject a normalized attribute list as a variadic argument list, each
attribute as a pre-built `slog.Attr` element. -/
def attrsToArgs (l : List (String × SVal)) : List Arg :=
  l.map fun p => Arg.attr p.1 p.2

/-! ### Channel writer (writer_channel.go) -/

/-- A bounded Go channel of strings: a capacity and the messages currently
buffered. -/
structure BoundedChan where
  capacity : Nat
  buffer : List String
deriving DecidableEq, Repr

/-- Result of `ChannelWriter.Write`: the channel afterwards, the reported
byte count, and the returned error (`none` = nil). -/
structure WriteResult where
  chan : BoundedChan
  written : Nat
  err : Option String
deriving DecidableEq, Repr

/-- `strings.TrimSpace`: strip leading and trailing whitespace. -/
def trimSpace (s : String) : String :=
  ⟨((s.data.dropWhile Char.isWhitespace).reverse.dropWhile Char.isWhitespace).reverse⟩

/-- `ChannelWriter.Write` from writer_channel.go: trim the payload; an
empty-after-trim message returns `(0, nil)` without touching the channel;
otherwise a non-blocking send is attempted — it enqueues when the buffer has
room and silently drops the message when the channel is full — and
`(len(p), nil)` is returned. -/
def ChannelWriter.Write (ch : BoundedChan) (p : String) : WriteResult :=
  let msg := trimSpace p
  if msg ≠ "" then
    if ch.buffer.length < ch.capacity then
      ⟨⟨ch.capacity, ch.buffer ++ [msg]⟩, p.length, none⟩
    else
      ⟨ch, p.length, none⟩
  else
    ⟨ch, 0, none⟩

/-! ### Logger close (logo.go `(*Logger).Close`) -/

/-- An owned rotation-backed file destination: whether its `Close` has been
called, and the error its `Close()` reports (`none` = nil). -/
structure FileWriter where
  closed : Bool
  closeErr : Option String
deriving DecidableEq, Repr

/-- An output writer implementing `Sync() error`, by the error it reports. -/
structure Syncer where
  syncErr : Option String
deriving DecidableEq, Repr

/-- The file-writer loop of `(*Logger).Close`: every writer's `Close` is
called, and `lastErr` is overwritten by each close error encountered. -/
def closeFileWriters (fws : List FileWriter) : List FileWriter × Option String :=
  fws.foldl
    (fun acc fw =>
      (acc.1 ++ [{ fw with closed := true }],
       match fw.closeErr with
       | some e => some e
       | none => acc.2))
    ([], none)

/-- The sync loop of `(*Logger).Close`: a sync error is recorded only while
`lastErr` is still nil. -/
def syncOutputs (lastErr : Option String) (outs : List Syncer) : Option String :=
  outs.foldl
    (fun acc s =>
      match s.syncErr, acc with
      | some e, none => some e
      | _, _ => acc)
    lastErr

/-- `(*Logger).Close` from logo.go: close every owned file writer keeping the
last close error, then sync the remaining outputs keeping the first sync
error only when no close error occurred. -/
def Logger.Close (fws : List FileWriter) (outs : List Syncer) :
    List FileWriter × Option String :=
  let r := closeFileWriters fws
  (r.1, syncOutputs r.2 outs)

/-! ### Log records and handler configuration -/

/-- A resolved call frame for a record: source file and line, as produced by
`runtime.CallersFrames` from the record's PC.  `none` models a zero PC or an
unresolvable frame. -/
abbrev Frame := String × Nat

/-- An slog record as both handlers consume it.  `time` is the wall-clock
timestamp already formatted with the fixed layout
`2006-01-02T15:04:05.000Z07:00`; `source` is the resolved frame of the
record's PC, `none` when the PC is zero. -/
structure Record where
  time : String
  level : Level
  message : String
  source : Option Frame
  attrs : List (String × SVal)
deriving DecidableEq, Repr

/-- `slog.HandlerOptions` as used here: the minimum level and the AddSource
flag (the repository's ReplaceAttr is the identity). -/
structure HandlerOptions where
  level : Level
  addSource : Bool
deriving DecidableEq, Repr

/-- The custom text handler (handler_custom.go), by its options; its output
writer is modelled by returning the rendered line. -/
structure CustomTextHandler where
  opts : HandlerOptions
deriving DecidableEq, Repr

/-- The JSON handler (handler_json.go), by its options and pretty flag. -/
structure JSONHandler where
  opts : HandlerOptions
  prettyPrint : Bool
deriving DecidableEq, Repr

/-- The global `attrOrder` list from logo.go: the fixed attribute order
preference for the reserved keys. -/
def attrOrder : List String := ["time", "level", "msg", "source"]

/-- `CustomTextHandler.Enabled`: `level >= minLevel`. -/
def CustomTextHandler.Enabled (h : CustomTextHandler) (level : Level) : Bool :=
  level ≥ h.opts.level

/-- `JSONHandler.Enabled`: `level >= minLevel`. -/
def JSONHandler.Enabled (h : JSONHandler) (level : Level) : Bool :=
  level ≥ h.opts.level

/-! ### Go string-keyed maps as association lists

The handlers' `map[string]string` / `map[string]interface{}` are read only
through key lookup, key deletion and key-set iteration followed by a sort,
so an association list with replace-or-append update is a faithful model:
its keys are pairwise distinct by construction, and the final sort erases
the one piece of state Go does not guarantee, the iteration order. -/

/-- Go map assignment `m[k] = v`: replace the binding when the key is
present, append it otherwise. -/
def mapSet (m : List (String × String)) (k v : String) : List (String × String) :=
  if m.any (fun p => p.1 == k) then
    m.map (fun p => if p.1 == k then (k, v) else p)
  else
    m ++ [(k, v)]

/-- Go map read `m[k]`. -/
def mapGet (m : List (String × String)) (k : String) : Option String :=
  (m.find? (fun p => p.1 == k)).map (fun p => p.2)

/-- Go `delete(m, k)`. -/
def mapDelete (m : List (String × String)) (k : String) : List (String × String) :=
  m.filter (fun p => !(p.1 == k))

/-- The key set of a Go map (`for k := range m`). -/
def mapKeys (m : List (String × String)) : List String :=
  m.map (fun p => p.1)

/-! ### Lexicographic string order (Go `slices.Sort` on `[]string`)

Go sorts the remaining attribute keys with `slices.Sort`, i.e. ascending
lexicographic order on strings.  We embed that order with a structurally
recursive Boolean comparator (so that concrete sorts evaluate inside the
kernel) and sort with `List.insertionSort`, which produces the unique
sorted permutation — the same list any correct sort produces. -/

/-- Lexicographic less-or-equal on character lists, comparing code points. -/
def lexLe : List Char → List Char → Bool
  | [], _ => true
  | _ :: _, [] => false
  | a :: as, b :: bs =>
      if a.toNat < b.toNat then true
      else if b.toNat < a.toNat then false
      else lexLe as bs

/-- Lexicographic less-or-equal on strings. -/
def strLe (a b : String) : Bool :=
  lexLe a.data b.data

/-- `strLe` as a (decidable) relation, the order `slices.Sort` sorts by. -/
abbrev strLeP (a b : String) : Prop := strLe a b = true

/-! ### Custom text handler `Handle` (part_004 `CustomTextHandler.Handle`) -/

/-- Strip a file path to its last `/`-separated component
(`strings.LastIndex(shortFile, "/")` then the suffix). -/
def shortFile (f : String) : String :=
  match (f.splitOn "/").reverse with
  | [] => f
  | x :: _ => x

/-- The standard attributes the text handler seeds its map with: `time`,
`level`, `msg` always, and `source` when AddSource is set and the record's
PC resolved to a frame with a non-empty file. -/
def textBaseAttrs (h : CustomTextHandler) (r : Record) : List (String × String) :=
  let m := [("time", r.time), ("level", levelToString r.level), ("msg", r.message)]
  if h.opts.addSource then
    match r.source with
    | some (file, line) =>
        if file ≠ "" then mapSet m "source" (shortFile file ++ ":" ++ toString line) else m
    | none => m
  else m

/-- Is this pair equal to the zero `slog.Attr{}` (`a.Equal(slog.Attr{})`)? -/
def isZeroAttr (p : String × SVal) : Bool :=
  p.1 == "" && p.2 == SVal.vnil

/-- The guard of the text handler's collection loop: the attribute's key is
none of the reserved keys (`a.Key != "level" && a.Key != "msg" &&
a.Key != "time" && a.Key != "source"`) and the attribute is not the zero
`slog.Attr{}`. -/
def keptAttr (p : String × SVal) : Bool :=
  !(p.1 == "level" || p.1 == "msg" || p.1 == "time" || p.1 == "source") && !isZeroAttr p

/-- The text handler's attribute collection loop: record attributes whose key
is not reserved and which are not the zero attribute are written into the
map, stringified, later entries overwriting earlier ones. -/
def textCollect (m : List (String × String)) : List (String × SVal) → List (String × String)
  | [] => m
  | p :: rest =>
      if keptAttr p then textCollect (mapSet m p.1 p.2.render) rest
      else textCollect m rest

/-- The ordered-attributes loop of the text handler: walk the preference
list; a present key with a non-empty value is emitted as `key=value` and
deleted from the map; a present key with an empty value is skipped by
`continue` and, notably, left in the map. -/
def textOrderedPart : List String → List (String × String) → List String × List (String × String)
  | [], m => ([], m)
  | key :: ks, m =>
      match mapGet m key with
      | some v =>
          if v = "" then textOrderedPart ks m
          else
            let r := textOrderedPart ks (mapDelete m key)
            ((key ++ "=" ++ v) :: r.1, r.2)
      | none => textOrderedPart ks m

/-- The remaining-attributes loop: the keys still in the map, sorted
ascending, each emitted as `key=value`. -/
def textRemainingPart (m : List (String × String)) : List String :=
  (List.insertionSort strLeP (mapKeys m)).map
    (fun k => k ++ "=" ++ ((mapGet m k).getD ""))

/-- `CustomTextHandler.Handle`: collect the map, emit the ordered part, then
the remaining keys sorted, space-joined, with a trailing newline. -/
def CustomTextHandler.Handle (h : CustomTextHandler) (r : Record) : String :=
  let m := textCollect (textBaseAttrs h r) r.attrs
  let op := textOrderedPart attrOrder m
  String.intercalate " " (op.1 ++ textRemainingPart op.2) ++ "\n"

/-! ### JSON handler `Handle` (handler_json.go `JSONHandler.Handle`) -/

/-- A JSON value as `a.Value.Any()` yields it: native types are preserved. -/
inductive JVal where
  | jnull : JVal
  | jstr (s : String) : JVal
  | jint (n : Int) : JVal
  | jbool (b : Bool) : JVal
  | jattr (k : String) (v : JVal) : JVal
deriving DecidableEq, Repr

/-- `a.Value.Any()`: the native value carried by an attribute. -/
def SVal.toJVal : SVal → JVal
  | .vnil => .jnull
  | .vstr s => .jstr s
  | .vint n => .jint n
  | .vbool b => .jbool b
  | .vattr k v => .jattr k (v.toJVal)

/-- Go map assignment for the JSON handler's `map[string]interface{}`. -/
def jmapSet (m : List (String × JVal)) (k : String) (v : JVal) : List (String × JVal) :=
  if m.any (fun p => p.1 == k) then
    m.map (fun p => if p.1 == k then (k, v) else p)
  else
    m ++ [(k, v)]

/-- The JSON handler's `otherAttrs` collection loop: skip zero attributes,
skip keys contained in `attrOrder`, store every other attribute's native
value, later entries overwriting earlier ones. -/
def jsonCollect (m : List (String × JVal)) : List (String × SVal) → List (String × JVal)
  | [] => m
  | (k, v) :: rest =>
      if isZeroAttr (k, v) then jsonCollect m rest
      else if attrOrder.contains k then jsonCollect m rest
      else jsonCollect (jmapSet m k v.toJVal) rest

/-- The entries of the JSON handler's `orderedMap`: `time`, `level`, `msg`
always; `source` (the full file path, not shortened) when AddSource is set
and the frame resolved; then every collected other attribute. -/
def jsonMapEntries (h : JSONHandler) (r : Record) : List (String × JVal) :=
  let base := [("time", JVal.jstr r.time),
               ("level", JVal.jstr (levelToString r.level)),
               ("msg", JVal.jstr r.message)]
  let withSrc :=
    if h.opts.addSource then
      match r.source with
      | some (file, line) =>
          if file ≠ "" then base ++ [("source", JVal.jstr (file ++ ":" ++ toString line))]
          else base
      | none => base
    else base
  withSrc ++ jsonCollect [] r.attrs

/-- The key sequence of the rendered JSON object.  `encoding/json` marshals a
Go map with its keys sorted lexicographically, so the emitted object presents
all keys — reserved ones included — in ascending order. -/
def JSONHandler.renderedKeys (h : JSONHandler) (r : Record) : List String :=
  List.insertionSort strLeP ((jsonMapEntries h r).map (fun p => p.1))

/-! ### Logger facade (logo.go `Logger`, `NewLogger`, `SetLoggerLevel`) -/

/-- The per-logger configuration context (`loggerContext`), restricted to the
fields the claims touch.  `outputCount` is the length of `ctx.outputs`. -/
structure LoggerCtx where
  logLevel : Level
  includeSource : Bool
  includeStackTraces : Bool
  useJSONFormat : Bool
  jsonPretty : Bool
  outputCount : Nat
deriving DecidableEq, Repr

/-- The handler held by a logger built by `NewLogger`: one of the two
built-in handlers over the fan-out of the outputs, or — when the logger has
no outputs at all — the fallback `slog.NewTextHandler(io.Discard, opts)`,
which only retains its configured minimum level. -/
inductive ActiveHandler where
  | text (h : CustomTextHandler) : ActiveHandler
  | json (h : JSONHandler) : ActiveHandler
  | discard (minLevel : Level) : ActiveHandler
deriving DecidableEq, Repr

/-- A logger instance: its configuration context and its active handler. -/
structure LoggerState where
  ctx : LoggerCtx
  handler : ActiveHandler
deriving DecidableEq, Repr

/-- The minimum level the active handler gates on. -/
def ActiveHandler.minLevel : ActiveHandler → Level
  | .text h => h.opts.level
  | .json h => h.opts.level
  | .discard m => m

/-- `slog.Logger.Enabled` as the facade uses it: delegate to the handler's
`Enabled`, which for all three handler shapes is `level >= minLevel`. -/
def ActiveHandler.Enabled (h : ActiveHandler) (level : Level) : Bool :=
  match h with
  | .text th => th.Enabled level
  | .json jh => jh.Enabled level
  | .discard m => level ≥ m

/-- The handler-construction step of `NewLogger`: with at least one output,
build the JSON or text handler per the format flag at the context's level;
with no outputs, fall back to a discard text handler. -/
def NewLogger (ctx : LoggerCtx) : LoggerState :=
  if ctx.outputCount > 0 then
    if ctx.useJSONFormat then
      ⟨ctx, .json ⟨⟨ctx.logLevel, ctx.includeSource⟩, ctx.jsonPretty⟩⟩
    else
      ⟨ctx, .text ⟨⟨ctx.logLevel, ctx.includeSource⟩⟩⟩
  else ⟨ctx, .discard ctx.logLevel⟩

/-- `GetCurrentLevel(logger)` for a non-nil logger with a context: the
context's log level. -/
def GetCurrentLevel (l : LoggerState) : Level := l.ctx.logLevel

/-- `IsLevelEnabled(level, logger)` for a non-nil logger with a context:
`level >= logger.ctx.logLevel`. -/
def IsLevelEnabled (level : Level) (l : LoggerState) : Bool :=
  level ≥ l.ctx.logLevel

/-- `SetLoggerLevel(logger, level)`: store the level in the context; the
built-in handlers expose no `SetLevel` method, so when the logger has
outputs the handler is rebuilt from scratch — same format, same pretty and
source flags — at the new level; with no outputs the stale handler is
kept. -/
def SetLoggerLevel (l : LoggerState) (level : Level) : LoggerState :=
  let ctx' := { l.ctx with logLevel := level }
  if l.ctx.outputCount > 0 then
    if l.ctx.useJSONFormat then
      ⟨ctx', .json ⟨⟨level, l.ctx.includeSource⟩, l.ctx.jsonPretty⟩⟩
    else
      ⟨ctx', .text ⟨⟨level, l.ctx.includeSource⟩⟩⟩
  else ⟨ctx', l.handler⟩

/-- The rendering a handler performs in `Handle`; the discard fallback
renders to the void. -/
def ActiveHandler.render (h : ActiveHandler) (r : Record) : String :=
  match h with
  | .text th => th.Handle r
  | .json jh => String.intercalate "," (jh.renderedKeys r)
  | .discard _ => ""

/-- One leveled logging call through the facade: the record reaches the
handler (and through the fan-out, the destinations) iff the handler's level
gate admits its level. -/
def logEmit (l : LoggerState) (r : Record) : Option String :=
  if l.handler.Enabled r.level then some (l.handler.render r) else none

/-! ### Trace and Fatal (logo.go `(*Logger).Trace`, `(*Logger).Fatal`) -/

/-- The call site one frame above the logging method, as `runtime.Caller(1)`
plus `runtime.FuncForPC` deliver it. -/
structure CallSite where
  file : String
  line : Nat
  fn : String
deriving DecidableEq, Repr

/-- The injected source attribute value:
`fmt.Sprintf("%s:%d (%s)", file, line, fn)`. -/
def CallSite.sourceVal (cs : CallSite) : String :=
  cs.file ++ ":" ++ toString cs.line ++ " (" ++ cs.fn ++ ")"

/-- Drop every normalized caller attribute whose key is `slog.SourceKey`
(the `filtered := userAttrs[:0]` loop of Trace and Fatal). -/
def filterSourceAttrs (l : List (String × SVal)) : List (String × SVal) :=
  l.filter (fun a => !(a.1 == "source"))

/-- The record `Trace` hands to the handler: a `trace` attribute holding the
captured stack, the injected `source` attribute for the call site, then the
normalized caller attributes with any caller-supplied `source` filtered
out. -/
def traceRecord (now : String) (cs : CallSite) (stack : String)
    (msg : String) (attrs : List Arg) : Record :=
  { time := now
    level := LevelTrace
    message := msg
    source := some (cs.file, cs.line)
    attrs := [("trace", SVal.vstr stack), ("source", SVal.vstr cs.sourceVal)]
      ++ filterSourceAttrs (normalizeAttrs attrs) }

/-- The record `Fatal` hands to the handler: the injected `source` attribute,
a `trace` attribute only when this logger has stack traces enabled, then the
filtered normalized caller attributes. -/
def fatalRecord (l : LoggerState) (now : String) (cs : CallSite) (stack : String)
    (msg : String) (attrs : List Arg) : Record :=
  let custom := [("source", SVal.vstr cs.sourceVal)]
  let custom := if l.ctx.includeStackTraces then custom ++ [("trace", SVal.vstr stack)] else custom
  { time := now
    level := LevelFatal
    message := msg
    source := some (cs.file, cs.line)
    attrs := custom ++ filterSourceAttrs (normalizeAttrs attrs) }

/-- The externally observable effects of one `Fatal` call. -/
inductive FatalEvent where
  | handled (r : Record) : FatalEvent
  | exited (code : Nat) : FatalEvent
deriving DecidableEq, Repr

/-- `(*Logger).Fatal`: when even the Fatal level is gated off, exit with
status 1 at once; otherwise build the record, hand it to the handler (its
error discarded), and then exit with status 1. -/
def Logger.Fatal (l : LoggerState) (now : String) (cs : CallSite) (stack : String)
    (msg : String) (attrs : List Arg) : List FatalEvent :=
  if ¬ l.handler.Enabled LevelFatal then
    [.exited 1]
  else
    [.handled (fatalRecord l now cs stack msg attrs), .exited 1]

/-- `(*Logger).Trace`: a no-op below its threshold, otherwise the trace
record is handled (no exit). -/
def Logger.Trace (l : LoggerState) (now : String) (cs : CallSite) (stack : String)
    (msg : String) (attrs : List Arg) : List FatalEvent :=
  if ¬ l.handler.Enabled LevelTrace then []
  else [.handled (traceRecord now cs stack msg attrs)]

/-! ### Specification-side rendering of the text line

`textLineSpec` is written from the spec's words (as amended by the
empty-reserved-value behaviour the code exhibits), directly from the record,
with no Go map in sight; the refinement theorem for claim C6 proves it equal
to `CustomTextHandler.Handle`. -/

/-- The reserved fields a record contributes, in the fixed preference order:
`time`, `level`, `msg`, and `source` when source capture is on and the frame
resolved. -/
def reservedFields (h : CustomTextHandler) (r : Record) : List (String × String) :=
  [("time", r.time), ("level", levelToString r.level), ("msg", r.message)] ++
    (if h.opts.addSource then
      match r.source with
      | some (file, line) =>
          if file ≠ "" then [("source", shortFile file ++ ":" ++ toString line)] else []
      | none => []
    else [])

/-- The record attributes that survive the text handler's collection guard. -/
def keptAttrs (attrs : List (String × SVal)) : List (String × SVal) :=
  attrs.filter keptAttr

/-- Last-wins value of a caller attribute key, stringified. -/
def lastValue (attrs : List (String × SVal)) (k : String) : Option String :=
  ((keptAttrs attrs).reverse.find? (fun p => p.1 == k)).map (fun p => p.2.render)

/-- The text line per the (amended) spec: reserved keys first in the fixed
order, each in the leading section only when its value is non-empty; then,
sorted ascending, the remaining keys — the caller attribute keys
(deduplicated, last value winning) together with any reserved key whose
value was empty, the latter rendered as `key=`. -/
def textLineOf (res : List (String × String)) (attrs : List (String × SVal)) : String :=
  let lead := (res.filter (fun p => !(p.2 == ""))).map (fun p => p.1 ++ "=" ++ p.2)
  let leakKeys := (res.filter (fun p => p.2 == "")).map (fun p => p.1)
  let callerKeys := ((keptAttrs attrs).map (fun p => p.1)).dedup
  let tailKeys := List.insertionSort strLeP (callerKeys ++ leakKeys)
  let tailPieces := tailKeys.map (fun k => k ++ "=" ++ ((lastValue attrs k).getD ""))
  String.intercalate " " (lead ++ tailPieces) ++ "\n"

/-- The amended spec line of a record: the reserved fields and the caller
attributes rendered by `textLineOf`. -/
def textLineSpec (h : CustomTextHandler) (r : Record) : String :=
  textLineOf (reservedFields h r) r.attrs

/-! ## Theorems -/

/-! ### Helper lemmas -/

theorem normalizeAttrs_attrsToArgs (l : List (String × SVal)) :
    normalizeAttrs (attrsToArgs l) = l := by
  induction l with
  | nil => rfl
  | cons p rest ih => simp [attrsToArgs, normalizeAttrs] at ih ⊢; exact ih

theorem getLast?_cons_or {α : Type} (a : α) (l : List α) :
    (a :: l).getLast? = l.getLast?.or (some a) := by
  induction l generalizing a with
  | nil => rfl
  | cons b t ih =>
      rw [List.getLast?_cons_cons, ih b]
      cases hg : t.getLast? <;> rfl

theorem closeFileWriters_foldl (fws : List FileWriter)
    (acc : List FileWriter × Option String) :
    fws.foldl
        (fun acc fw =>
          (acc.1 ++ [{ fw with closed := true }],
           match fw.closeErr with
           | some e => some e
           | none => acc.2))
        acc =
      (acc.1 ++ fws.map (fun fw => { fw with closed := true }),
       ((fws.filterMap FileWriter.closeErr).getLast?).or acc.2) := by
  induction fws generalizing acc with
  | nil => simp
  | cons fw fws ih =>
      rw [List.foldl_cons, ih]
      rcases hfw : fw.closeErr with _ | e <;>
        simp [List.filterMap_cons, hfw, getLast?_cons_or, Option.or_assoc]

theorem syncOutputs_foldl (outs : List Syncer) (acc : Option String) :
    syncOutputs acc outs = acc.or (outs.findSome? Syncer.syncErr) := by
  induction outs generalizing acc with
  | nil => cases acc <;> rfl
  | cons s outs ih =>
      have hstep : syncOutputs acc (s :: outs) =
          syncOutputs
            (match s.syncErr, acc with
              | some e, none => some e
              | _, _ => acc) outs := rfl
      rw [hstep]
      rcases hs : s.syncErr with _ | e <;> rcases acc with _ | a <;>
        simp [hs, ih, List.findSome?_cons]

/-! ### Claim C1 — `Close` error aggregation -/

/-- Claim C1, counterexample: with two file destinations whose closes both
fail, `Close` returns the second (later) close error, not the first one the
claim promises — the later error replaces the earlier. -/
theorem C1_counterexample :
    (Logger.Close [⟨false, some "e1"⟩, ⟨false, some "e2"⟩] []).2 = some "e2" ∧
    (Logger.Close [⟨false, some "e1"⟩, ⟨false, some "e2"⟩] []).2 ≠ some "e1" := by
  constructor
  · rfl
  · decide

/-- Claim C1 as amended: `Close` attempts the close of every owned file
destination even when an earlier close fails, and the returned error is the
last close error encountered among them (a later close error replaces an
earlier one); an output's sync error is reported only when no close error
occurred; with no file destination and no sync error, `Close` returns no
error. -/
theorem C1_close_amended (fws : List FileWriter) (outs : List Syncer) :
    (Logger.Close fws outs).1 = fws.map (fun fw => { fw with closed := true }) ∧
    ((Logger.Close fws outs).1.all (fun fw => fw.closed)) = true ∧
    (Logger.Close fws outs).2 =
      ((fws.filterMap FileWriter.closeErr).getLast?).or
        (outs.findSome? Syncer.syncErr) ∧
    (Logger.Close [] [] : List FileWriter × Option String) = ([], none) := by
  have h1 : closeFileWriters fws =
      (fws.map (fun fw => { fw with closed := true }),
       ((fws.filterMap FileWriter.closeErr).getLast?).or none) := by
    simpa [closeFileWriters] using closeFileWriters_foldl fws ([], none)
  refine ⟨?_, ?_, ?_, rfl⟩
  · simp [Logger.Close, h1]
  · simp [Logger.Close, h1, List.all_eq_true]
  · simp only [Logger.Close, h1, Option.or_none, syncOutputs_foldl]

/-! ### Claim C7 — total, resynchronizing attribute normalization -/

/-- Claim C7: attribute normalization is a total function (it never errors
or panics), and on each shape of input it behaves as specified: a pre-built
attribute is taken as-is; a string key takes the following element as its
value; a trailing string key gets the sentinel value `"(MISSING)"`; a
non-string, non-attribute element at a key position is skipped together with
its would-be value, and alone at the end it is skipped by itself. -/
theorem C7_normalizeAttrs_cases :
    (∀ (k : String) (v : SVal) (rest : List Arg),
        normalizeAttrs (.attr k v :: rest) = (k, v) :: normalizeAttrs rest) ∧
    (∀ (s : String) (x : Arg) (rest : List Arg),
        normalizeAttrs (.str s :: x :: rest) = (s, x.toVal) :: normalizeAttrs rest) ∧
    (∀ s : String, normalizeAttrs [.str s] = [(s, .vstr "(MISSING)")]) ∧
    (∀ (v : SVal) (x : Arg) (rest : List Arg),
        normalizeAttrs (.other v :: x :: rest) = normalizeAttrs rest) ∧
    (∀ v : SVal, normalizeAttrs [.other v] = []) :=
  ⟨fun _ _ _ => rfl, fun _ _ _ => rfl, fun _ => rfl, fun _ _ _ => rfl, fun _ => rfl⟩

/-! ### Claim C8 — idempotence of normalization -/

/-- Claim C8: re-normalizing the attribute sequence produced by
`normalizeAttrs` yields a result with the same attribute count and the same
key sequence (indeed the very same attribute list). -/
theorem C8_normalize_idempotent (args : List Arg) :
    (normalizeAttrs (attrsToArgs (normalizeAttrs args))).length
        = (normalizeAttrs args).length ∧
    (normalizeAttrs (attrsToArgs (normalizeAttrs args))).map (fun p => p.1)
        = (normalizeAttrs args).map (fun p => p.1) := by
  rw [normalizeAttrs_attrsToArgs]; exact ⟨rfl, rfl⟩

/-! ### Claim C9 — non-blocking channel writer -/

/-- Claim C9: a write whose content is empty after trimming is dropped with
byte count zero and no error; a non-empty write to a full channel is
silently dropped — the channel is unchanged, no error is returned and the
producer is never blocked; a non-empty write to a channel with room enqueues
the trimmed message and reports the full byte count with no error. -/
theorem C9_channelWrite_spec (ch : BoundedChan) (p : String) :
    (trimSpace p = "" → ChannelWriter.Write ch p = ⟨ch, 0, none⟩) ∧
    (trimSpace p ≠ "" → ch.capacity ≤ ch.buffer.length →
        ChannelWriter.Write ch p = ⟨ch, p.length, none⟩) ∧
    (trimSpace p ≠ "" → ch.buffer.length < ch.capacity →
        ChannelWriter.Write ch p = ⟨⟨ch.capacity, ch.buffer ++ [trimSpace p]⟩, p.length, none⟩) := by
  refine ⟨fun he => ?_, fun hne hfull => ?_, fun hne hroom => ?_⟩
  · simp [ChannelWriter.Write, he]
  · simp [ChannelWriter.Write, hne, Nat.not_lt.mpr hfull]
  · simp [ChannelWriter.Write, hne, hroom]

/-- Witness for C9 at concrete inputs: an all-whitespace write, a write to a
full channel, and a write to a channel with room. -/
theorem C9_channelWrite_spec_witness :
    ChannelWriter.Write ⟨2, ["a"]⟩ "  " = ⟨⟨2, ["a"]⟩, 0, none⟩ ∧
    ChannelWriter.Write ⟨1, ["a"]⟩ " x " = ⟨⟨1, ["a"]⟩, 3, none⟩ ∧
    ChannelWriter.Write ⟨2, ["a"]⟩ " x " = ⟨⟨2, ["a", "x"]⟩, 3, none⟩ :=
  ⟨(C9_channelWrite_spec ⟨2, ["a"]⟩ "  ").1 (by decide),
   (C9_channelWrite_spec ⟨1, ["a"]⟩ " x ").2.1 (by decide) (by decide),
   (C9_channelWrite_spec ⟨2, ["a"]⟩ " x ").2.2 (by decide) (by decide)⟩

/-! ### Claim C2 — `SetLoggerLevel` rebuilds the handler -/

/-- Claim C2, counterexample: a zero-output logger is reachable
(`NewLogger` with console disabled and no destinations appends no outputs),
and for it `SetLoggerLevel` skips the rebuild branch (`len(outputs) > 0`
fails): the stale discard fallback handler keeps the old minimum level, so
the handler is not rebuilt at the new level and a record at the old Info
level is still handled even though it sits below the new Error minimum —
falsifying the claim's rebuild statement and its emission biconditional. -/
theorem C2_counterexample :
    (SetLoggerLevel (NewLogger ⟨LevelInfo, false, false, false, false, 0⟩) LevelError).handler
        = ActiveHandler.discard LevelInfo ∧
    (SetLoggerLevel (NewLogger ⟨LevelInfo, false, false, false, false, 0⟩)
        LevelError).handler.minLevel ≠ LevelError ∧
    (logEmit (SetLoggerLevel (NewLogger ⟨LevelInfo, false, false, false, false, 0⟩) LevelError)
        ⟨"T", LevelInfo, "m", none, []⟩).isSome = true ∧
    ¬ (LevelError ≤ (⟨"T", LevelInfo, "m", none, []⟩ : Record).level) := by
  decide

/-- Claim C2 as amended: after `SetLoggerLevel(logger, newLevel)`,
`GetCurrentLevel` returns `newLevel` for every logger; and for every logger
with at least one output destination (the spec's "active handler"
situation — the built-in handlers expose no `SetLevel` method, so the
rebuild branch runs) the handler is rebuilt at the new level, so that
afterwards a record is rendered and forwarded iff its level is at least the
new level.  A zero-output logger keeps its stale fallback handler at the
old level. -/
theorem C2_setLoggerLevel (l : LoggerState) (newLevel : Level) (r : Record) :
    GetCurrentLevel (SetLoggerLevel l newLevel) = newLevel ∧
    (0 < l.ctx.outputCount →
      (SetLoggerLevel l newLevel).handler.minLevel = newLevel ∧
      (logEmit (SetLoggerLevel l newLevel) r).isSome = decide (newLevel ≤ r.level)) := by
  constructor
  · by_cases hout : 0 < l.ctx.outputCount <;>
      by_cases hj : l.ctx.useJSONFormat <;>
        simp [SetLoggerLevel, GetCurrentLevel, hout, hj]
  · intro h
    by_cases hj : l.ctx.useJSONFormat <;>
      by_cases he : newLevel ≤ r.level <;>
        simp [SetLoggerLevel, logEmit, GetCurrentLevel, h, hj, he, ActiveHandler.minLevel,
          ActiveHandler.Enabled, CustomTextHandler.Enabled, JSONHandler.Enabled, ge_iff_le]

/-- Witness for C2 at a concrete logger with one output. -/
theorem C2_setLoggerLevel_witness :
    GetCurrentLevel (SetLoggerLevel ⟨⟨0, false, false, false, false, 1⟩, .discard 0⟩ 4) = 4 ∧
    (SetLoggerLevel ⟨⟨0, false, false, false, false, 1⟩, .discard 0⟩ 4).handler.minLevel = 4 ∧
    (logEmit (SetLoggerLevel ⟨⟨0, false, false, false, false, 1⟩, .discard 0⟩ 4)
        ⟨"T", 5, "m", none, []⟩).isSome = decide ((4 : Level) ≤ (5 : Level)) := by
  have h := C2_setLoggerLevel ⟨⟨0, false, false, false, false, 1⟩, .discard 0⟩ 4
    ⟨"T", 5, "m", none, []⟩
  exact ⟨h.1, h.2 (by decide)⟩

/-! ### Claim C4 — `Fatal` always exits with status 1 -/

/-- Claim C4: every `Fatal` call ends with exit status 1 — also when the
level gate suppresses the record — and when the gate admits the Fatal level
the record, carrying the caller's message verbatim, is handled (written
through the active handler to the outputs) before the exit. -/
theorem C4_fatal_exits (l : LoggerState) (now : String) (cs : CallSite)
    (stack msg : String) (attrs : List Arg) :
    (Logger.Fatal l now cs stack msg attrs).getLast? = some (.exited 1) ∧
    (fatalRecord l now cs stack msg attrs).message = msg ∧
    (l.handler.Enabled LevelFatal = true →
      Logger.Fatal l now cs stack msg attrs =
        [.handled (fatalRecord l now cs stack msg attrs), .exited 1]) ∧
    (l.handler.Enabled LevelFatal = false →
      Logger.Fatal l now cs stack msg attrs = [.exited 1]) := by
  by_cases he : l.handler.Enabled LevelFatal = true <;>
    simp [Logger.Fatal, fatalRecord, he]

/-- Witness for C4 at two concrete loggers: one whose gate admits Fatal and
one whose minimum level sits above Fatal. -/
theorem C4_fatal_exits_witness :
    Logger.Fatal ⟨⟨0, false, false, false, false, 1⟩, .text ⟨⟨0, false⟩⟩⟩ "T" ⟨"f.go", 3, "main"⟩
        "stk" "boom" [] =
      [.handled (fatalRecord ⟨⟨0, false, false, false, false, 1⟩, .text ⟨⟨0, false⟩⟩⟩ "T"
        ⟨"f.go", 3, "main"⟩ "stk" "boom" []), .exited 1] ∧
    Logger.Fatal ⟨⟨20, false, false, false, false, 1⟩, .text ⟨⟨20, false⟩⟩⟩ "T" ⟨"f.go", 3, "main"⟩
        "stk" "boom" [] = [.exited 1] :=
  ⟨(C4_fatal_exits ⟨⟨0, false, false, false, false, 1⟩, .text ⟨⟨0, false⟩⟩⟩ "T" ⟨"f.go", 3, "main"⟩
      "stk" "boom" []).2.2.1 (by decide),
   (C4_fatal_exits ⟨⟨20, false, false, false, false, 1⟩, .text ⟨⟨20, false⟩⟩⟩ "T" ⟨"f.go", 3, "main"⟩
      "stk" "boom" []).2.2.2 (by decide)⟩

/-! ### Claim C5 — the level gate -/

/-- Claim C5: both handlers' `Enabled` is the pure comparison
`level >= minimum`; a record is rendered and forwarded through the facade
iff its level is at least the active handler's minimum; and a Trace-level
record is only ever emitted when that minimum was lowered strictly below
Debug. -/
theorem activeEnabled_eq (h : ActiveHandler) (lv : Level) :
    h.Enabled lv = decide (h.minLevel ≤ lv) := by
  cases h <;>
    simp [ActiveHandler.Enabled, ActiveHandler.minLevel, CustomTextHandler.Enabled,
      JSONHandler.Enabled, ge_iff_le]

theorem logEmit_isSome (l : LoggerState) (r : Record) :
    (logEmit l r).isSome = decide (l.handler.minLevel ≤ r.level) := by
  rw [logEmit, activeEnabled_eq]
  by_cases he : l.handler.minLevel ≤ r.level <;> simp [he]

theorem C5_level_gate (h1 : CustomTextHandler) (h2 : JSONHandler)
    (l : LoggerState) (r : Record) :
    h1.Enabled r.level = decide (h1.opts.level ≤ r.level) ∧
    h2.Enabled r.level = decide (h2.opts.level ≤ r.level) ∧
    (logEmit l r).isSome = decide (l.handler.minLevel ≤ r.level) ∧
    (r.level = LevelTrace → (logEmit l r).isSome = true →
      l.handler.minLevel < LevelDebug) := by
  refine ⟨by simp [CustomTextHandler.Enabled, ge_iff_le],
          by simp [JSONHandler.Enabled, ge_iff_le], logEmit_isSome l r, ?_⟩
  intro hlv hs
  rw [logEmit_isSome l r, hlv] at hs
  have hle : l.handler.minLevel ≤ LevelTrace := of_decide_eq_true hs
  exact lt_of_le_of_lt hle (by decide)

/-- Witness for C5 at a Trace-level record admitted by a handler whose
minimum is the Trace level. -/
theorem C5_level_gate_witness :
    ((⟨⟨LevelTrace, false⟩⟩ : CustomTextHandler).Enabled (⟨"T", LevelTrace, "m", none, []⟩ : Record).level
        = decide (LevelTrace ≤ LevelTrace)) ∧
    ((⟨⟨LevelTrace, false⟩, false⟩ : JSONHandler).Enabled (⟨"T", LevelTrace, "m", none, []⟩ : Record).level
        = decide (LevelTrace ≤ LevelTrace)) ∧
    ((logEmit ⟨⟨LevelTrace, false, false, false, false, 1⟩, .text ⟨⟨LevelTrace, false⟩⟩⟩
        ⟨"T", LevelTrace, "m", none, []⟩).isSome = decide (LevelTrace ≤ LevelTrace)) ∧
    (⟨⟨LevelTrace, false, false, false, false, 1⟩, .text ⟨⟨LevelTrace, false⟩⟩⟩ :
        LoggerState).handler.minLevel < LevelDebug := by
  have h := C5_level_gate ⟨⟨LevelTrace, false⟩⟩ ⟨⟨LevelTrace, false⟩, false⟩
    ⟨⟨LevelTrace, false, false, false, false, 1⟩, .text ⟨⟨LevelTrace, false⟩⟩⟩
    ⟨"T", LevelTrace, "m", none, []⟩
  exact ⟨h.1, h.2.1, by simpa using h.2.2.1, h.2.2.2 (by decide) (by decide)⟩

/-! ### Claim C10 — the injected source attribute -/

/-- Claim C10: in the records `Trace` and `Fatal` hand to the handler, every
caller-supplied attribute keyed `source` has been filtered out and exactly
one `source` attribute remains — the facade-injected one of the form
`file:line (function)` for the call site one frame above the logging method
(`runtime.Caller(1)`), whose resolved frame the record also carries. -/
theorem C10_source_injection (l : LoggerState) (now : String) (cs : CallSite)
    (stack msg : String) (attrs : List Arg) :
    (traceRecord now cs stack msg attrs).attrs.filter (fun p => p.1 == "source")
        = [("source", SVal.vstr cs.sourceVal)] ∧
    (fatalRecord l now cs stack msg attrs).attrs.filter (fun p => p.1 == "source")
        = [("source", SVal.vstr cs.sourceVal)] ∧
    (traceRecord now cs stack msg attrs).source = some (cs.file, cs.line) ∧
    (fatalRecord l now cs stack msg attrs).source = some (cs.file, cs.line) := by
  have hfs : ∀ x : List (String × SVal),
      (filterSourceAttrs x).filter (fun p => p.1 == "source") = [] := by
    intro x
    simp only [filterSourceAttrs, List.filter_filter]
    have : ∀ p : String × SVal, ((p.1 == "source") && !(p.1 == "source")) = false := by
      intro p; cases hp : p.1 == "source" <;> simp [hp]
    simp [this]
  refine ⟨?_, ?_, rfl, rfl⟩
  · simp [traceRecord, List.filter_append, hfs]
  · by_cases ht : l.ctx.includeStackTraces <;>
      simp [fatalRecord, ht, List.filter_append, hfs]

/-! ### Claim C3 — JSON attribute ordering -/

/-- Claim C3 fails on the code: `JSONHandler.Handle` stores its entries in a
plain Go map and marshals it with `encoding/json`, which emits map keys in
ascending lexicographic order — so for a record carrying an attribute `aaa`
the rendered object presents `aaa` before `level`, `msg` and `time`, while
the text handler (and the claim) put the reserved keys first.  This
evaluates the embedded code at that failing input. -/
theorem C3_json_key_order_bug :
    JSONHandler.renderedKeys ⟨⟨LevelInfo, false⟩, false⟩
        ⟨"T", LevelInfo, "hello", none, [("aaa", SVal.vint 1)]⟩
      = ["aaa", "level", "msg", "time"] ∧
    CustomTextHandler.Handle ⟨⟨LevelInfo, false⟩⟩
        ⟨"T", LevelInfo, "hello", none, [("aaa", SVal.vint 1)]⟩
      = "time=T level=INFO msg=hello aaa=1\n" ∧
    (["aaa", "level", "msg", "time"] ≠ ["time", "level", "msg", "aaa"]) :=
  ⟨by decide, by decide, by decide⟩

/-! ### Claim C6 — text handler attribute ordering -/

/-- Claim C6, counterexample: a record with an empty message.  The reserved
key `msg` is skipped by the ordered loop but left in the map, so it is
emitted as `msg=` among the lexicographically sorted remaining keys — the
claim's line, which omits empty reserved keys entirely, differs. -/
theorem C6_counterexample :
    CustomTextHandler.Handle ⟨⟨LevelInfo, false⟩⟩
        ⟨"T", LevelInfo, "", none, [("b", SVal.vstr "1")]⟩
      = "time=T level=INFO b=1 msg=\n" ∧
    CustomTextHandler.Handle ⟨⟨LevelInfo, false⟩⟩
        ⟨"T", LevelInfo, "", none, [("b", SVal.vstr "1")]⟩
      ≠ "time=T level=INFO b=1\n" :=
  ⟨by decide, by decide⟩

/-! ### Association-map lemmas for the handler maps -/

theorem mapKeys_cons (a : String × String) (m : List (String × String)) :
    mapKeys (a :: m) = a.1 :: mapKeys m := rfl

theorem mapGet_cons (p : String × String) (m : List (String × String)) (k : String) :
    mapGet (p :: m) k = if p.1 = k then some p.2 else mapGet m k := by
  by_cases h : p.1 = k <;> simp [mapGet, List.find?_cons, h]

theorem mapGet_map_replace (m : List (String × String)) (k v k' : String) :
    mapGet (m.map (fun p => if p.1 == k then (k, v) else p)) k'
      = if m.any (fun p => p.1 == k) && (k' == k) then some v else mapGet m k' := by
  induction m with
  | nil => simp [mapGet]
  | cons a m ih =>
      by_cases ha : a.1 = k
      · by_cases hk : k' = k
        · subst hk; simp [mapGet_cons, ha, ih]
        · have hb : (a.1 == k) = true := beq_iff_eq.mpr ha
          have hkb : (k' == k) = false := beq_eq_false_iff_ne.mpr hk
          have hak : a.1 ≠ k' := fun h => hk (h.symm.trans ha)
          rw [List.map_cons, if_pos hb, mapGet_cons, mapGet_cons, ih]
          simp only [List.any_cons, hb, Bool.true_or, Bool.true_and, hkb, Bool.and_false]
          simp [Ne.symm hk, hak]
      · have hb : (a.1 == k) = false := beq_eq_false_iff_ne.mpr ha
        by_cases hak : a.1 = k'
        · have hk : k' ≠ k := fun h => ha (hak.trans h)
          have hkb : (k' == k) = false := beq_eq_false_iff_ne.mpr hk
          simp only [List.map_cons, List.any_cons, hb, Bool.false_or, hkb, Bool.and_false]
          rw [mapGet_cons, mapGet_cons]
          simp [ha, hak]
        · simp only [List.map_cons, List.any_cons, hb, Bool.false_or]
          rw [mapGet_cons, mapGet_cons, ih]
          simp [ha, hak]

theorem mapGet_append_fresh (m : List (String × String)) (k v k' : String)
    (hnone : mapGet m k = none) :
    mapGet (m ++ [(k, v)]) k' = if k' = k then some v else mapGet m k' := by
  induction m with
  | nil =>
      by_cases hk : k' = k
      · subst hk; simp [mapGet_cons, mapGet]
      · simp [mapGet_cons, mapGet, hk, Ne.symm hk]
  | cons a m ih =>
      rw [List.cons_append, mapGet_cons, mapGet_cons]
      rw [mapGet_cons] at hnone
      by_cases hck : a.1 = k
      · rw [if_pos hck] at hnone; exact absurd hnone (Option.some_ne_none a.2)
      · rw [if_neg hck] at hnone
        by_cases hak : a.1 = k'
        · have hk : k' ≠ k := fun h => hck (hak.trans h)
          simp [hak, hk]
        · rw [if_neg hak, if_neg hak]
          exact ih hnone

theorem any_key_iff (m : List (String × String)) (k : String) :
    m.any (fun p => p.1 == k) = true ↔ k ∈ mapKeys m := by
  simp only [List.any_eq_true, mapKeys, List.mem_map, beq_iff_eq]

theorem mapGet_eq_none_iff (m : List (String × String)) (k : String) :
    mapGet m k = none ↔ k ∉ mapKeys m := by
  induction m with
  | nil => simp [mapGet, mapKeys]
  | cons a m ih =>
      rw [mapGet_cons, mapKeys_cons]
      by_cases h : a.1 = k
      · simp [h]
      · rw [if_neg h, ih]
        simp [List.mem_cons, Ne.symm h]

theorem mapGet_set (m : List (String × String)) (k v k' : String) :
    mapGet (mapSet m k v) k' = if k' = k then some v else mapGet m k' := by
  unfold mapSet
  by_cases hany : m.any (fun p => p.1 == k) = true
  · rw [if_pos hany, mapGet_map_replace, hany]
    by_cases hk : k' = k <;> simp [hk]
  · rw [if_neg hany]
    apply mapGet_append_fresh
    rw [mapGet_eq_none_iff]
    exact fun hmem => hany ((any_key_iff m k).mpr hmem)

theorem mapKeys_map_replace (m : List (String × String)) (k v : String) :
    mapKeys (m.map (fun p => if p.1 == k then (k, v) else p)) = mapKeys m := by
  simp only [mapKeys, List.map_map]
  apply List.map_congr_left
  intro p _
  by_cases h : p.1 = k <;> simp [h]

theorem mapKeys_set (m : List (String × String)) (k v : String) :
    mapKeys (mapSet m k v)
      = if k ∈ mapKeys m then mapKeys m else mapKeys m ++ [k] := by
  unfold mapSet
  by_cases hany : m.any (fun p => p.1 == k) = true
  · rw [if_pos hany, mapKeys_map_replace, if_pos ((any_key_iff m k).mp hany)]
  · rw [if_neg hany, if_neg (fun hmem => hany ((any_key_iff m k).mpr hmem))]
    simp [mapKeys]

theorem mapKeys_set_nodup (m : List (String × String)) (k v : String)
    (h : (mapKeys m).Nodup) : (mapKeys (mapSet m k v)).Nodup := by
  rw [mapKeys_set]
  by_cases hmem : k ∈ mapKeys m
  · rwa [if_pos hmem]
  · rw [if_neg hmem]
    rw [(List.perm_append_singleton k (mapKeys m)).nodup_iff]
    exact List.nodup_cons.mpr ⟨hmem, h⟩

theorem mapGet_delete (m : List (String × String)) (k k' : String) :
    mapGet (mapDelete m k) k' = if k' = k then none else mapGet m k' := by
  induction m with
  | nil => by_cases hk : k' = k <;> simp [mapDelete, mapGet, hk]
  | cons a m ih =>
      by_cases ha : a.1 = k
      · have hc : mapDelete (a :: m) k = mapDelete m k := by simp [mapDelete, ha]
        rw [hc, ih, mapGet_cons]
        by_cases hk : k' = k
        · simp [hk]
        · have hak : a.1 ≠ k' := fun h => hk (h ▸ ha)
          simp [hk, hak]
      · have hc : mapDelete (a :: m) k = a :: mapDelete m k := by simp [mapDelete, ha]
        rw [hc, mapGet_cons, mapGet_cons, ih]
        by_cases hak : a.1 = k'
        · have hk : k' ≠ k := fun h => ha (hak.trans h)
          simp [hak, hk]
        · simp [hak]

theorem mapKeys_delete (m : List (String × String)) (k : String) :
    mapKeys (mapDelete m k) = (mapKeys m).filter (fun x => !(x == k)) := by
  induction m with
  | nil => rfl
  | cons a m ih =>
      by_cases ha : a.1 = k <;>
        simp only [mapDelete, mapKeys, List.filter_cons, List.map_cons] at ih ⊢ <;>
        simp [ha, ih]

theorem mem_of_mapGet_eq_some {m : List (String × String)} {k v : String}
    (h : mapGet m k = some v) : (k, v) ∈ m := by
  simp only [mapGet, Option.map_eq_some'] at h
  rcases h with ⟨p, hfind, hv⟩
  have hmem := List.mem_of_find?_eq_some hfind
  have hkey : p.1 = k := by simpa using List.find?_some hfind
  have hp : p = (k, v) := by
    cases p; simp only at hkey hv; simp [hkey, hv]
  rwa [hp] at hmem

theorem mapGet_eq_some_of_mem {m : List (String × String)} {k v : String}
    (hnd : (mapKeys m).Nodup) (hm : (k, v) ∈ m) : mapGet m k = some v := by
  induction m with
  | nil => cases hm
  | cons a m ih =>
      rw [mapKeys_cons, List.nodup_cons] at hnd
      rcases List.mem_cons.mp hm with rfl | hm2
      · simp [mapGet_cons]
      · have hk : k ∈ mapKeys m := by
          simp only [mapKeys, List.mem_map]
          exact ⟨(k, v), hm2, rfl⟩
        have hak : a.1 ≠ k := fun h => hnd.1 (h ▸ hk)
        rw [mapGet_cons, if_neg hak]
        exact ih hnd.2 hm2

theorem mapGet_isSome_iff (m : List (String × String)) (k : String) :
    (mapGet m k).isSome = true ↔ k ∈ mapKeys m := by
  rcases hg : mapGet m k with _ | v
  · simpa using (mapGet_eq_none_iff m k).mp hg
  · simp only [Option.isSome_some, true_iff]
    by_contra hmem
    rw [(mapGet_eq_none_iff m k).mpr hmem] at hg
    cases hg

/-! ### The text handler's collection loop as a fold over the kept attributes -/

theorem textCollect_eq_foldl (attrs : List (String × SVal)) (m : List (String × String)) :
    textCollect m attrs
      = (keptAttrs attrs).foldl (fun acc p => mapSet acc p.1 p.2.render) m := by
  induction attrs generalizing m with
  | nil => rfl
  | cons p rest ih =>
      by_cases hp : keptAttr p = true <;>
        simp [textCollect, keptAttrs, List.filter_cons, hp, ih]

theorem foldl_set_get (l : List (String × SVal)) (m : List (String × String)) (k : String) :
    mapGet (l.foldl (fun acc p => mapSet acc p.1 p.2.render) m) k
      = ((l.reverse.find? (fun p => p.1 == k)).map (fun p => p.2.render)).or (mapGet m k) := by
  induction l generalizing m with
  | nil => simp
  | cons p l ih =>
      rw [List.foldl_cons, ih, mapGet_set, List.reverse_cons, List.find?_append]
      rcases hf : l.reverse.find? (fun p => p.1 == k) with _ | q
      · by_cases hk : p.1 = k
        · simp [hf, List.find?_cons, hk]
        · simp [hf, List.find?_cons, beq_eq_false_iff_ne.mpr hk, Ne.symm hk]
      · simp [hf]

theorem foldl_set_keys_mem (l : List (String × SVal)) (m : List (String × String))
    (k : String) :
    k ∈ mapKeys (l.foldl (fun acc p => mapSet acc p.1 p.2.render) m)
      ↔ k ∈ mapKeys m ∨ k ∈ l.map (fun p => p.1) := by
  induction l generalizing m with
  | nil => simp
  | cons p l ih =>
      rw [List.foldl_cons, ih, mapKeys_set]
      by_cases hmem : p.1 ∈ mapKeys m
      · rw [if_pos hmem]
        have hpk : k = p.1 → k ∈ mapKeys m := fun h => by rw [h]; exact hmem
        simp only [List.map_cons, List.mem_cons]
        tauto
      · rw [if_neg hmem]
        simp only [List.mem_append, List.mem_singleton, List.map_cons, List.mem_cons]
        tauto

theorem foldl_set_keys_nodup (l : List (String × SVal)) (m : List (String × String))
    (h : (mapKeys m).Nodup) :
    (mapKeys (l.foldl (fun acc p => mapSet acc p.1 p.2.render) m)).Nodup := by
  induction l generalizing m with
  | nil => exact h
  | cons p l ih => exact ih _ (mapKeys_set_nodup _ _ _ h)

/-! ### Facts about the kept attributes -/

theorem keptAttr_not_reserved {p : String × SVal} (h : keptAttr p = true) :
    p.1 ≠ "level" ∧ p.1 ≠ "msg" ∧ p.1 ≠ "time" ∧ p.1 ≠ "source" := by
  simp only [keptAttr, Bool.and_eq_true, Bool.not_eq_true', Bool.or_eq_false_iff,
    beq_eq_false_iff_ne] at h
  tauto

theorem keptAttrs_find?_reserved (attrs : List (String × SVal)) (k : String)
    (hk : k = "level" ∨ k = "msg" ∨ k = "time" ∨ k = "source") :
    (keptAttrs attrs).reverse.find? (fun p => p.1 == k) = none := by
  rw [List.find?_eq_none]
  intro p hp
  have hmem : p ∈ keptAttrs attrs := List.mem_reverse.mp hp
  have hkept : keptAttr p = true := List.of_mem_filter hmem
  have hnr := keptAttr_not_reserved hkept
  rcases hk with rfl | rfl | rfl | rfl <;>
    simp [hnr.1, hnr.2.1, hnr.2.2.1, hnr.2.2.2]

theorem keptAttrs_keys_not_reserved (attrs : List (String × SVal)) (k : String)
    (hmem : k ∈ (keptAttrs attrs).map (fun p => p.1)) :
    k ≠ "level" ∧ k ≠ "msg" ∧ k ≠ "time" ∧ k ≠ "source" := by
  rcases List.mem_map.mp hmem with ⟨p, hp, rfl⟩
  exact keptAttr_not_reserved (List.of_mem_filter hp)

/-! ### The lexicographic comparator is a total, transitive, antisymmetric order -/

theorem lexLe_total (a b : List Char) : lexLe a b = true ∨ lexLe b a = true := by
  induction a generalizing b with
  | nil => exact Or.inl rfl
  | cons x xs ih =>
      cases b with
      | nil => exact Or.inr rfl
      | cons y ys =>
          by_cases hxy : x.toNat < y.toNat
          · exact Or.inl (by simp [lexLe, hxy])
          · by_cases hyx : y.toNat < x.toNat
            · exact Or.inr (by simp [lexLe, hyx])
            · rcases ih ys with h | h
              · exact Or.inl (by simp [lexLe, hxy, hyx, h])
              · exact Or.inr (by simp [lexLe, hxy, hyx, h])

theorem lexLe_trans {a b c : List Char} (hab : lexLe a b = true)
    (hbc : lexLe b c = true) : lexLe a c = true := by
  induction a generalizing b c with
  | nil => rfl
  | cons x xs ih =>
      cases b with
      | nil => simp [lexLe] at hab
      | cons y ys =>
          cases c with
          | nil => simp [lexLe] at hbc
          | cons z zs =>
              simp only [lexLe] at hab hbc ⊢
              by_cases hxy : x.toNat < y.toNat
              · by_cases hyz : y.toNat < z.toNat
                · rw [if_pos (by omega)]
                · by_cases hzy : z.toNat < y.toNat
                  · rw [if_neg hyz, if_pos hzy] at hbc; cases hbc
                  · rw [if_pos (by omega)]
              · by_cases hyx : y.toNat < x.toNat
                · rw [if_neg hxy, if_pos hyx] at hab; cases hab
                · rw [if_neg hxy, if_neg hyx] at hab
                  by_cases hyz : y.toNat < z.toNat
                  · rw [if_pos (by omega)]
                  · by_cases hzy : z.toNat < y.toNat
                    · rw [if_neg hyz, if_pos hzy] at hbc; cases hbc
                    · rw [if_neg hyz, if_neg hzy] at hbc
                      have hxz : ¬ x.toNat < z.toNat := by omega
                      have hzx : ¬ z.toNat < x.toNat := by omega
                      rw [if_neg hxz, if_neg hzx]
                      exact ih hab hbc

theorem char_toNat_inj {x y : Char} (h : x.toNat = y.toNat) : x = y := by
  apply Char.ext
  exact UInt32.ext h

theorem lexLe_antisymm {a b : List Char} (hab : lexLe a b = true)
    (hba : lexLe b a = true) : a = b := by
  induction a generalizing b with
  | nil =>
      cases b with
      | nil => rfl
      | cons y ys => simp [lexLe] at hba
  | cons x xs ih =>
      cases b with
      | nil => simp [lexLe] at hab
      | cons y ys =>
          simp only [lexLe] at hab hba
          by_cases hxy : x.toNat < y.toNat
          · rw [if_neg (by omega), if_pos hxy] at hba; cases hba
          · by_cases hyx : y.toNat < x.toNat
            · rw [if_neg hxy, if_pos hyx] at hab; cases hab
            · rw [if_neg hxy, if_neg hyx] at hab
              rw [if_neg hyx, if_neg hxy] at hba
              have hx : x = y := char_toNat_inj (by omega)
              rw [hx, ih hab hba]

theorem strLe_total_thm (a b : String) : strLeP a b ∨ strLeP b a :=
  lexLe_total a.data b.data

theorem strLe_trans_thm {a b c : String} (hab : strLeP a b) (hbc : strLeP b c) :
    strLeP a c :=
  lexLe_trans hab hbc

theorem strLe_antisymm_thm {a b : String} (hab : strLeP a b) (hba : strLeP b a) :
    a = b := by
  have hd : a.data = b.data := lexLe_antisymm hab hba
  cases a; cases b
  exact congrArg String.mk hd

/-- Two permuted string lists have the same `insertionSort strLeP` image. -/
theorem insertionSort_eq_of_perm {l₁ l₂ : List String} (h : l₁.Perm l₂) :
    List.insertionSort strLeP l₁ = List.insertionSort strLeP l₂ := by
  haveI : IsTotal String strLeP := ⟨strLe_total_thm⟩
  haveI : IsTrans String strLeP := ⟨fun _ _ _ => strLe_trans_thm⟩
  haveI : IsAntisymm String strLeP := ⟨fun _ _ => strLe_antisymm_thm⟩
  exact List.eq_of_perm_of_sorted
    (((List.perm_insertionSort strLeP l₁).trans h).trans
      (List.perm_insertionSort strLeP l₂).symm)
    (List.sorted_insertionSort strLeP l₁)
    (List.sorted_insertionSort strLeP l₂)

/-! ### The ordered-attributes loop, characterized -/

theorem textOrderedPart_eq (ks : List String) (m : List (String × String))
    (hks : ks.Nodup) (hm : (mapKeys m).Nodup) :
    textOrderedPart ks m =
      (ks.filterMap (fun k =>
          match mapGet m k with
          | some v => if v = "" then none else some (k ++ "=" ++ v)
          | none => none),
       m.filter (fun p => !(decide (p.1 ∈ ks) && !(p.2 == "")))) := by
  induction ks generalizing m with
  | nil =>
      simp only [textOrderedPart, List.filterMap_nil, List.not_mem_nil, decide_False,
        Bool.false_and, Bool.not_false, List.filter_true]
  | cons k ks ih =>
      have hkks : k ∉ ks := (List.nodup_cons.mp hks).1
      have hks' : ks.Nodup := (List.nodup_cons.mp hks).2
      rcases hg : mapGet m k with _ | v
      · have hkm : k ∉ mapKeys m := (mapGet_eq_none_iff m k).mp hg
        have hstep : textOrderedPart (k :: ks) m = textOrderedPart ks m := by
          simp [textOrderedPart, hg]
        rw [hstep, ih m hks' hm]
        have hfm : m.filter (fun p => !(decide (p.1 ∈ ks) && !(p.2 == "")))
            = m.filter (fun p => !(decide (p.1 ∈ (k :: ks)) && !(p.2 == ""))) := by
          apply List.filter_congr
          intro p hp
          have hpk : p.1 ≠ k := fun h =>
            hkm (h ▸ List.mem_map_of_mem (fun q => q.1) hp)
          simp [List.mem_cons, hpk]
        rw [hfm]
        simp [List.filterMap_cons, hg]
      · by_cases hv : v = ""
        · subst hv
          have hstep : textOrderedPart (k :: ks) m = textOrderedPart ks m := by
            simp [textOrderedPart, hg]
          rw [hstep, ih m hks' hm]
          have hfm : m.filter (fun p => !(decide (p.1 ∈ ks) && !(p.2 == "")))
              = m.filter (fun p => !(decide (p.1 ∈ (k :: ks)) && !(p.2 == ""))) := by
            apply List.filter_congr
            rintro ⟨p1, p2⟩ hp
            by_cases hpk : p1 = k
            · subst hpk
              have hpv : mapGet m p1 = some p2 := mapGet_eq_some_of_mem hm hp
              rw [hg] at hpv
              have hv2 : p2 = "" := (Option.some.injEq _ _).mp hpv.symm
              simp [hv2]
            · simp [List.mem_cons, hpk]
          rw [hfm]
          simp [List.filterMap_cons, hg]
        · have hstep : textOrderedPart (k :: ks) m =
              ((k ++ "=" ++ v) :: (textOrderedPart ks (mapDelete m k)).1,
               (textOrderedPart ks (mapDelete m k)).2) := by
            simp [textOrderedPart, hg, hv]
          have hmd : (mapKeys (mapDelete m k)).Nodup := by
            rw [mapKeys_delete]; exact hm.filter _
          rw [hstep, ih (mapDelete m k) hks' hmd]
          have hpieces : ks.filterMap (fun k' =>
                match mapGet (mapDelete m k) k' with
                | some v => if v = "" then none else some (k' ++ "=" ++ v)
                | none => none)
              = ks.filterMap (fun k' =>
                match mapGet m k' with
                | some v => if v = "" then none else some (k' ++ "=" ++ v)
                | none => none) := by
            apply List.filterMap_congr
            intro k' hk'
            have hne : k' ≠ k := fun h => hkks (h ▸ hk')
            rw [mapGet_delete, if_neg hne]
          have hfil : (mapDelete m k).filter (fun p => !(decide (p.1 ∈ ks) && !(p.2 == "")))
              = m.filter (fun p => !(decide (p.1 ∈ (k :: ks)) && !(p.2 == ""))) := by
            rw [mapDelete, List.filter_filter]
            apply List.filter_congr
            rintro ⟨p1, p2⟩ hp
            by_cases hpk : p1 = k
            · subst hpk
              have hpv : mapGet m p1 = some p2 := mapGet_eq_some_of_mem hm hp
              rw [hg] at hpv
              have hv2 : p2 = v := (Option.some.injEq _ _).mp hpv.symm
              simp [hv2, hv]
            · simp [List.mem_cons, hpk]
          rw [hpieces, hfil]
          simp [List.filterMap_cons, hg, hv]

/-! ### The leading reserved section, characterized -/

theorem filterMap_reserved_lead (ks : List String) (res : List (String × String))
    (hnd : ks.Nodup) (hsub : List.Sublist (mapKeys res) ks) :
    ks.filterMap (fun k =>
        match mapGet res k with
        | some v => if v = "" then none else some (k ++ "=" ++ v)
        | none => none)
      = (res.filter (fun p => !(p.2 == ""))).map (fun p => p.1 ++ "=" ++ p.2) := by
  induction ks generalizing res with
  | nil =>
      have hres : res = [] := by
        cases res with
        | nil => rfl
        | cons a l => simp [mapKeys] at hsub
      subst hres; rfl
  | cons k ks ih =>
      have hkks : k ∉ ks := (List.nodup_cons.mp hnd).1
      have hnd' : ks.Nodup := (List.nodup_cons.mp hnd).2
      cases res with
      | nil =>
          have htail := ih [] hnd' (List.nil_sublist ks)
          simp only [List.filterMap_cons]
          simp [mapGet]
      | cons a res' =>
          rw [mapKeys_cons] at hsub
          cases hsub with
          | cons _ hsubtl =>
              have hknotin : k ∉ a.1 :: mapKeys res' := by
                intro hmem
                exact hkks (hsubtl.subset hmem)
              have hgnone : mapGet (a :: res') k = none := by
                rw [mapGet_eq_none_iff, mapKeys_cons]
                exact hknotin
              have htail := ih (a :: res') hnd' hsubtl
              simp only [List.filterMap_cons, hgnone]
              simpa using htail
          | cons₂ _ hsubtl =>
              have hghead : mapGet (a :: res') a.1 = some a.2 := by
                rw [mapGet_cons, if_pos rfl]
              have hcongr : ∀ k' ∈ ks,
                  (match mapGet (a :: res') k' with
                    | some v => if v = "" then none else some (k' ++ "=" ++ v)
                    | none => none)
                  = (match mapGet res' k' with
                    | some v => if v = "" then none else some (k' ++ "=" ++ v)
                    | none => none) := by
                intro k' hk'
                have hne : a.1 ≠ k' := fun hh => hkks (hh ▸ hk')
                rw [mapGet_cons, if_neg hne]
              by_cases hv : a.2 = ""
              · simp only [List.filterMap_cons, hghead, hv, if_pos rfl,
                  List.filter_cons]
                rw [List.filterMap_congr hcongr, ih res' hnd' hsubtl]
                simp [hv]
              · simp only [List.filterMap_cons, hghead, List.filter_cons]
                rw [List.filterMap_congr hcongr, ih res' hnd' hsubtl]
                simp [hv, beq_eq_false_iff_ne.mpr hv]

/-! ### Further helper lemmas for the tail section -/

theorem mapGet_filter_of_pred (m : List (String × String)) (q : String × String → Bool)
    (k : String) (hq : ∀ v, q (k, v) = true) :
    mapGet (m.filter q) k = mapGet m k := by
  induction m with
  | nil => rfl
  | cons a m ih =>
      by_cases hak : a.1 = k
      · have hqa : q a = true := by
          have : a = (k, a.2) := by cases a; simp_all
          rw [this]; exact hq a.2
        rw [List.filter_cons, if_pos hqa, mapGet_cons, mapGet_cons, if_pos hak, if_pos hak]
      · rcases hqa : q a with _ | _
        · rw [List.filter_cons, if_neg (by simp [hqa]), ih, mapGet_cons, if_neg hak]
        · rw [List.filter_cons, if_pos (by simp [hqa]), mapGet_cons, if_neg hak, ih,
            mapGet_cons, if_neg hak]

theorem key_unique {l : List (String × SVal)} (hnd : (l.map (fun p => p.1)).Nodup)
    {p q : String × SVal} (hp : p ∈ l) (hq : q ∈ l) (hk : p.1 = q.1) : p = q := by
  induction l with
  | nil => cases hp
  | cons a l ih =>
      rw [List.map_cons, List.nodup_cons] at hnd
      rcases List.mem_cons.mp hp with rfl | hp2
      · rcases List.mem_cons.mp hq with rfl | hq2
        · rfl
        · exact absurd (hk ▸ List.mem_map_of_mem (fun p => p.1) hq2) hnd.1
      · rcases List.mem_cons.mp hq with rfl | hq2
        · exact absurd (hk ▸ List.mem_map_of_mem (fun p => p.1) hp2) hnd.1
        · exact ih hnd.2 hp2 hq2

theorem find?_key_eq_of_perm {l₁ l₂ : List (String × SVal)} (hperm : l₁.Perm l₂)
    (hnd : (l₁.map (fun p => p.1)).Nodup) (k : String) :
    l₁.find? (fun p => p.1 == k) = l₂.find? (fun p => p.1 == k) := by
  rcases h1 : l₁.find? (fun p => p.1 == k) with _ | p
  · rw [h1, eq_comm, List.find?_eq_none]
    rw [List.find?_eq_none] at h1
    intro p hp
    exact h1 p (hperm.mem_iff.mpr hp)
  · have hpmem : p ∈ l₁ := List.mem_of_find?_eq_some h1
    have hpk : p.1 = k := by simpa using List.find?_some h1
    have hpmem2 : p ∈ l₂ := hperm.mem_iff.mp hpmem
    rcases h2 : l₂.find? (fun p => p.1 == k) with _ | q
    · rw [List.find?_eq_none] at h2
      exact absurd (by simpa using h2 p hpmem2) (by simp [hpk])
    · have hqmem : q ∈ l₁ := hperm.mem_iff.mpr (List.mem_of_find?_eq_some h2)
      have hqk : q.1 = k := by simpa using List.find?_some h2
      rw [h1, h2]
      exact congrArg some (key_unique hnd hpmem hqmem (hpk.trans hqk.symm))

/-! ### The base map equals the reserved fields -/

theorem textBaseAttrs_eq (h : CustomTextHandler) (r : Record) :
    textBaseAttrs h r = reservedFields h r := by
  unfold textBaseAttrs reservedFields
  by_cases hadd : h.opts.addSource
  · rcases hs : r.source with _ | ⟨file, line⟩
    · simp [hadd]
    · by_cases hfile : file = ""
      · simp [hadd, hfile]
      · simp [hadd, hfile, mapSet]
  · simp [hadd]

theorem reservedFields_keys_nodup (h : CustomTextHandler) (r : Record) :
    (mapKeys (reservedFields h r)).Nodup := by
  unfold reservedFields
  by_cases hadd : h.opts.addSource
  · rcases hs : r.source with _ | ⟨file, line⟩
    · simp [hadd, mapKeys]
    · by_cases hfile : file = "" <;> simp [hadd, hfile, mapKeys]
  · simp [hadd, mapKeys]

theorem reservedFields_keys_sublist (h : CustomTextHandler) (r : Record) :
    List.Sublist (mapKeys (reservedFields h r)) attrOrder := by
  unfold reservedFields attrOrder
  by_cases hadd : h.opts.addSource
  · rcases hs : r.source with _ | ⟨file, line⟩
    · simp [hadd, mapKeys]
      try decide
    · by_cases hfile : file = ""
      · simp [hadd, hfile, mapKeys]
        try decide
      · simp [hadd, hfile, mapKeys]
        try decide
  · simp [hadd, mapKeys]
    try decide

theorem mem_mapKeys_iff (l : List (String × String)) (k : String) :
    k ∈ mapKeys l ↔ ∃ v, (k, v) ∈ l := by
  simp only [mapKeys, List.mem_map]
  constructor
  · rintro ⟨⟨k1, v⟩, hp, rfl⟩; exact ⟨v, hp⟩
  · rintro ⟨v, hv⟩; exact ⟨(k, v), hv, rfl⟩

theorem mem_attrOrder_iff (k : String) :
    k ∈ attrOrder ↔ (k = "level" ∨ k = "msg" ∨ k = "time" ∨ k = "source") := by
  simp [attrOrder]
  tauto

/-- The refinement theorem for the text handler: the Go implementation's
line equals the specification-side rendering for every handler and
record. -/
theorem textHandle_eq_spec (h : CustomTextHandler) (r : Record) :
    CustomTextHandler.Handle h r = textLineSpec h r := by
  have hattr : attrOrder.Nodup := by decide
  have hknd : (mapKeys (reservedFields h r)).Nodup := reservedFields_keys_nodup h r
  have hsub : List.Sublist (mapKeys (reservedFields h r)) attrOrder :=
    reservedFields_keys_sublist h r
  have hmnd : (mapKeys ((keptAttrs r.attrs).foldl
      (fun acc p => mapSet acc p.1 p.2.render) (reservedFields h r))).Nodup :=
    foldl_set_keys_nodup _ _ hknd
  have hget : ∀ k : String,
      mapGet ((keptAttrs r.attrs).foldl (fun acc p => mapSet acc p.1 p.2.render)
        (reservedFields h r)) k
      = (lastValue r.attrs k).or (mapGet (reservedFields h r) k) := by
    intro k
    rw [foldl_set_get]
    rfl
  have hresget : ∀ k, k ∈ attrOrder →
      mapGet ((keptAttrs r.attrs).foldl (fun acc p => mapSet acc p.1 p.2.render)
        (reservedFields h r)) k
      = mapGet (reservedFields h r) k := by
    intro k hk
    rw [hget k]
    have hk4 := (mem_attrOrder_iff k).mp hk
    have hlv : lastValue r.attrs k = none := by
      simp [lastValue, keptAttrs_find?_reserved r.attrs k hk4]
    rw [hlv]
    rfl
  have hkeptget : ∀ k, k ∉ attrOrder →
      mapGet ((keptAttrs r.attrs).foldl (fun acc p => mapSet acc p.1 p.2.render)
        (reservedFields h r)) k
      = lastValue r.attrs k := by
    intro k hk
    rw [hget k]
    have hres0 : mapGet (reservedFields h r) k = none :=
      (mapGet_eq_none_iff _ k).mpr (fun hmem => hk (hsub.subset hmem))
    rw [hres0]
    cases lastValue r.attrs k <;> rfl
  -- the lead section
  have hpieces : attrOrder.filterMap (fun k =>
      match mapGet ((keptAttrs r.attrs).foldl (fun acc p => mapSet acc p.1 p.2.render)
        (reservedFields h r)) k with
      | some v => if v = "" then none else some (k ++ "=" ++ v)
      | none => none)
      = ((reservedFields h r).filter (fun p => !(p.2 == ""))).map
          (fun p => p.1 ++ "=" ++ p.2) := by
    rw [List.filterMap_congr (fun k hk => by rw [hresget k hk])]
    exact filterMap_reserved_lead attrOrder (reservedFields h r) hattr hsub
  -- the tail section
  have hndM : (mapKeys (((keptAttrs r.attrs).foldl (fun acc p => mapSet acc p.1 p.2.render)
      (reservedFields h r)).filter
        (fun p => !(decide (p.1 ∈ attrOrder) && !(p.2 == ""))))).Nodup := by
    apply List.Nodup.sublist _ hmnd
    simp only [mapKeys]
    exact List.Sublist.map (fun p : String × String => p.1) (List.filter_sublist _)
  have hleaknd : (((reservedFields h r).filter (fun p => p.2 == "")).map
      (fun p => p.1)).Nodup := by
    apply List.Nodup.sublist _ hknd
    simp only [mapKeys]
    exact List.Sublist.map (fun p : String × String => p.1) (List.filter_sublist _)
  have hcallnd : (((keptAttrs r.attrs).map (fun p => p.1)).dedup).Nodup :=
    List.nodup_dedup _
  have hleakres : ∀ k, k ∈ ((reservedFields h r).filter (fun p => p.2 == "")).map
      (fun p => p.1) → k ∈ attrOrder := by
    intro k hk
    rcases List.mem_map.mp hk with ⟨p, hpmem, rfl⟩
    exact hsub.subset (List.mem_map_of_mem _ (List.mem_of_mem_filter hpmem))
  have hcallnores : ∀ k, k ∈ ((keptAttrs r.attrs).map (fun p => p.1)).dedup →
      k ∉ attrOrder := by
    intro k hk hres
    have hnr := keptAttrs_keys_not_reserved r.attrs k (List.mem_dedup.mp hk)
    have h4 := (mem_attrOrder_iff k).mp hres
    rcases h4 with h | h | h | h
    · exact hnr.1 h
    · exact hnr.2.1 h
    · exact hnr.2.2.1 h
    · exact hnr.2.2.2 h
  have hndCL : ((((keptAttrs r.attrs).map (fun p => p.1)).dedup)
      ++ ((reservedFields h r).filter (fun p => p.2 == "")).map (fun p => p.1)).Nodup :=
    List.Nodup.append hcallnd hleaknd
      (fun k hk1 hk2 => (hcallnores k hk1) (hleakres k hk2))
  have hleak_iff : ∀ k, k ∈ ((reservedFields h r).filter (fun p => p.2 == "")).map
      (fun p => p.1) ↔ (k, "") ∈ reservedFields h r := by
    intro k
    constructor
    · intro hk
      rcases List.mem_map.mp hk with ⟨p, hpmem, rfl⟩
      have hempty : p.2 = "" := by simpa using List.of_mem_filter hpmem
      have : p = (p.1, "") := by cases p; simp_all
      rw [← this]
      exact List.mem_of_mem_filter hpmem
    · intro hk
      refine List.mem_map.mpr ⟨(k, ""), List.mem_filter.mpr ⟨hk, by simp⟩, rfl⟩
  have hmem : ∀ k, k ∈ mapKeys (((keptAttrs r.attrs).foldl
      (fun acc p => mapSet acc p.1 p.2.render) (reservedFields h r)).filter
        (fun p => !(decide (p.1 ∈ attrOrder) && !(p.2 == ""))))
      ↔ k ∈ (((keptAttrs r.attrs).map (fun p => p.1)).dedup
          ++ ((reservedFields h r).filter (fun p => p.2 == "")).map (fun p => p.1)) := by
    intro k
    rw [mem_mapKeys_iff, List.mem_append]
    by_cases hres4 : k ∈ attrOrder
    · constructor
      · rintro ⟨v, hv⟩
        have hvM : (k, v) ∈ (keptAttrs r.attrs).foldl
            (fun acc p => mapSet acc p.1 p.2.render) (reservedFields h r) :=
          List.mem_of_mem_filter hv
        have hpred := List.of_mem_filter hv
        have hvempty : v = "" := by simpa [hres4] using hpred
        subst hvempty
        have hgetM := mapGet_eq_some_of_mem hmnd hvM
        rw [hresget k hres4] at hgetM
        exact Or.inr ((hleak_iff k).mpr (mem_of_mapGet_eq_some hgetM))
      · rintro (hk | hk)
        · exact absurd hres4 (hcallnores k hk)
        · have hkres : (k, "") ∈ reservedFields h r := (hleak_iff k).mp hk
          have hgres : mapGet (reservedFields h r) k = some "" :=
            mapGet_eq_some_of_mem hknd hkres
          have hgM : mapGet ((keptAttrs r.attrs).foldl
              (fun acc p => mapSet acc p.1 p.2.render) (reservedFields h r)) k
              = some "" := by rw [hresget k hres4]; exact hgres
          refine ⟨"", List.mem_filter.mpr ⟨mem_of_mapGet_eq_some hgM, by simp⟩⟩
    · constructor
      · rintro ⟨v, hv⟩
        have hvM : (k, v) ∈ (keptAttrs r.attrs).foldl
            (fun acc p => mapSet acc p.1 p.2.render) (reservedFields h r) :=
          List.mem_of_mem_filter hv
        have hkM : k ∈ mapKeys ((keptAttrs r.attrs).foldl
            (fun acc p => mapSet acc p.1 p.2.render) (reservedFields h r)) :=
          (mem_mapKeys_iff _ k).mpr ⟨v, hvM⟩
        rcases (foldl_set_keys_mem _ _ k).mp hkM with hk | hk
        · exact absurd (hsub.subset hk) hres4
        · exact Or.inl (List.mem_dedup.mpr hk)
      · rintro (hk | hk)
        · have hkkept : k ∈ (keptAttrs r.attrs).map (fun p => p.1) := List.mem_dedup.mp hk
          have hkM : k ∈ mapKeys ((keptAttrs r.attrs).foldl
              (fun acc p => mapSet acc p.1 p.2.render) (reservedFields h r)) :=
            (foldl_set_keys_mem _ _ k).mpr (Or.inr hkkept)
          rcases (mem_mapKeys_iff _ k).mp hkM with ⟨v, hvM⟩
          refine ⟨v, List.mem_filter.mpr ⟨hvM, by simp [hres4]⟩⟩
        · exact absurd (hleakres k hk) hres4
  have hperm : (mapKeys (((keptAttrs r.attrs).foldl
      (fun acc p => mapSet acc p.1 p.2.render) (reservedFields h r)).filter
        (fun p => !(decide (p.1 ∈ attrOrder) && !(p.2 == ""))))).Perm
      ((((keptAttrs r.attrs).map (fun p => p.1)).dedup)
        ++ ((reservedFields h r).filter (fun p => p.2 == "")).map (fun p => p.1)) :=
    (List.perm_ext_iff_of_nodup hndM hndCL).mpr hmem
  have hval : ∀ k ∈ List.insertionSort strLeP
      ((((keptAttrs r.attrs).map (fun p => p.1)).dedup)
        ++ ((reservedFields h r).filter (fun p => p.2 == "")).map (fun p => p.1)),
      k ++ "=" ++ ((mapGet (((keptAttrs r.attrs).foldl
          (fun acc p => mapSet acc p.1 p.2.render) (reservedFields h r)).filter
            (fun p => !(decide (p.1 ∈ attrOrder) && !(p.2 == "")))) k).getD "")
        = k ++ "=" ++ ((lastValue r.attrs k).getD "") := by
    intro k hk
    have hk2 := (List.perm_insertionSort strLeP _).mem_iff.mp hk
    rcases List.mem_append.mp hk2 with hk3 | hk3
    · have hknores : k ∉ attrOrder := hcallnores k hk3
      have hflt : mapGet (((keptAttrs r.attrs).foldl
          (fun acc p => mapSet acc p.1 p.2.render) (reservedFields h r)).filter
            (fun p => !(decide (p.1 ∈ attrOrder) && !(p.2 == "")))) k
          = mapGet ((keptAttrs r.attrs).foldl
            (fun acc p => mapSet acc p.1 p.2.render) (reservedFields h r)) k :=
        mapGet_filter_of_pred _ _ k (fun v => by simp [hknores])
      rw [hflt, hkeptget k hknores]
    · have hkres : (k, "") ∈ reservedFields h r := (hleak_iff k).mp hk3
      have hres4 : k ∈ attrOrder := hleakres k hk3
      have hgres : mapGet (reservedFields h r) k = some "" :=
        mapGet_eq_some_of_mem hknd hkres
      have hgM : mapGet ((keptAttrs r.attrs).foldl
          (fun acc p => mapSet acc p.1 p.2.render) (reservedFields h r)) k
          = some "" := by rw [hresget k hres4]; exact hgres
      have hmemflt : (k, "") ∈ ((keptAttrs r.attrs).foldl
          (fun acc p => mapSet acc p.1 p.2.render) (reservedFields h r)).filter
            (fun p => !(decide (p.1 ∈ attrOrder) && !(p.2 == ""))) :=
        List.mem_filter.mpr ⟨mem_of_mapGet_eq_some hgM, by simp⟩
      have hgflt : mapGet (((keptAttrs r.attrs).foldl
          (fun acc p => mapSet acc p.1 p.2.render) (reservedFields h r)).filter
            (fun p => !(decide (p.1 ∈ attrOrder) && !(p.2 == "")))) k = some "" :=
        mapGet_eq_some_of_mem hndM hmemflt
      have hlv : lastValue r.attrs k = none := by
        simp [lastValue,
          keptAttrs_find?_reserved r.attrs k ((mem_attrOrder_iff k).mp hres4)]
      rw [hgflt, hlv]
      rfl
  have htail : textRemainingPart (((keptAttrs r.attrs).foldl
      (fun acc p => mapSet acc p.1 p.2.render) (reservedFields h r)).filter
        (fun p => !(decide (p.1 ∈ attrOrder) && !(p.2 == ""))))
      = (List.insertionSort strLeP
          ((((keptAttrs r.attrs).map (fun p => p.1)).dedup)
            ++ ((reservedFields h r).filter (fun p => p.2 == "")).map (fun p => p.1))).map
          (fun k => k ++ "=" ++ ((lastValue r.attrs k).getD "")) := by
    unfold textRemainingPart
    rw [insertionSort_eq_of_perm hperm]
    exact List.map_congr_left hval
  -- assemble
  have hhandle : CustomTextHandler.Handle h r
      = String.intercalate " "
          ((textOrderedPart attrOrder (textCollect (textBaseAttrs h r) r.attrs)).1
            ++ textRemainingPart
              (textOrderedPart attrOrder (textCollect (textBaseAttrs h r) r.attrs)).2)
          ++ "\n" := rfl
  rw [hhandle, textCollect_eq_foldl, textBaseAttrs_eq,
    textOrderedPart_eq attrOrder _ hattr hmnd]
  dsimp only
  rw [hpieces, htail]
  rfl

/-- The spec-side line is invariant under permutation of a duplicate-free
attribute list. -/
theorem textLineOf_perm (res : List (String × String))
    (attrs2 attrs1 : List (String × SVal)) (hperm : attrs2.Perm attrs1)
    (hnd : (attrs1.map (fun p => p.1)).Nodup) :
    textLineOf res attrs2 = textLineOf res attrs1 := by
  have hkept : (keptAttrs attrs2).Perm (keptAttrs attrs1) := hperm.filter _
  have h1nd : ((keptAttrs attrs1).map (fun p => p.1)).Nodup :=
    List.Nodup.sublist
      (List.Sublist.map (fun p : String × SVal => p.1) (List.filter_sublist _)) hnd
  have h2nd : ((keptAttrs attrs2).map (fun p => p.1)).Nodup :=
    ((hkept.map (fun p => p.1)).nodup_iff).mpr h1nd
  have hsort : List.insertionSort strLeP
      ((((keptAttrs attrs2).map (fun p => p.1)).dedup)
        ++ (res.filter (fun p => p.2 == "")).map (fun p => p.1))
      = List.insertionSort strLeP
        ((((keptAttrs attrs1).map (fun p => p.1)).dedup)
          ++ (res.filter (fun p => p.2 == "")).map (fun p => p.1)) :=
    insertionSort_eq_of_perm
      (List.Perm.append_right _ (hkept.map (fun p => p.1)).dedup)
  have hlast : ∀ k, lastValue attrs2 k = lastValue attrs1 k := by
    intro k
    have hrevperm : ((keptAttrs attrs2).reverse).Perm ((keptAttrs attrs1).reverse) :=
      ((List.reverse_perm _).trans hkept).trans (List.reverse_perm _).symm
    have hrevnd : (((keptAttrs attrs2).reverse).map (fun p => p.1)).Nodup := by
      rw [List.map_reverse]
      exact List.nodup_reverse.mpr h2nd
    unfold lastValue
    rw [find?_key_eq_of_perm hrevperm hrevnd k]
  simp only [textLineOf, hsort, hlast]

/-- Claim C6 as amended: the Go text handler's line equals the spec-side
rendering — reserved keys first in the fixed order when present with a
non-empty value, an empty-valued reserved key emitted as `key=` among the
remaining keys, the remaining keys sorted ascending — and for a
duplicate-free attribute key set the line is invariant under any permutation
of the input attribute order. -/
theorem C6_text_ordering_amended (h : CustomTextHandler) (r : Record)
    (attrs2 : List (String × SVal)) (hperm : attrs2.Perm r.attrs)
    (hnd : (r.attrs.map (fun p => p.1)).Nodup) :
    CustomTextHandler.Handle h r = textLineSpec h r ∧
    CustomTextHandler.Handle h { r with attrs := attrs2 }
      = CustomTextHandler.Handle h r := by
  refine ⟨textHandle_eq_spec h r, ?_⟩
  rw [textHandle_eq_spec h r, textHandle_eq_spec h { r with attrs := attrs2 }]
  show textLineOf (reservedFields h { r with attrs := attrs2 }) attrs2
      = textLineOf (reservedFields h r) r.attrs
  have hres : reservedFields h { r with attrs := attrs2 } = reservedFields h r := rfl
  rw [hres]
  exact textLineOf_perm (reservedFields h r) attrs2 r.attrs hperm hnd

/-- Witness for C6 at a concrete record with two attributes given in both
orders. -/
theorem C6_text_ordering_amended_witness :
    CustomTextHandler.Handle ⟨⟨LevelInfo, false⟩⟩
        ⟨"T", LevelWarn, "warning", none, [("user", SVal.vstr "john"), ("count", SVal.vint 42)]⟩
      = textLineSpec ⟨⟨LevelInfo, false⟩⟩
        ⟨"T", LevelWarn, "warning", none, [("user", SVal.vstr "john"), ("count", SVal.vint 42)]⟩ ∧
    CustomTextHandler.Handle ⟨⟨LevelInfo, false⟩⟩
        ⟨"T", LevelWarn, "warning", none, [("count", SVal.vint 42), ("user", SVal.vstr "john")]⟩
      = CustomTextHandler.Handle ⟨⟨LevelInfo, false⟩⟩
        ⟨"T", LevelWarn, "warning", none, [("user", SVal.vstr "john"), ("count", SVal.vint 42)]⟩ := by
  have h := C6_text_ordering_amended ⟨⟨LevelInfo, false⟩⟩
    ⟨"T", LevelWarn, "warning", none, [("user", SVal.vstr "john"), ("count", SVal.vint 42)]⟩
    [("count", SVal.vint 42), ("user", SVal.vstr "john")]
    (by decide) (by decide)
  exact h

end Logo
